import Mathlib

/-!
Shallow embedding of the chunked-transform pipeline of
`src/yt_transcript/cli.py` (repository `t-clarky/yt-transcript`).

The external Anthropic text-generation capability is modelled as a trace of
responses (`ClaudeState.responses`) consumed one per call, since each real
call is an independent network round trip; the global `tracker` object and
the sequence of issued calls are threaded explicitly through the functions.
Token counts are `Nat`, dollar amounts are `ℚ` (the Python code uses floats;
the rates and the divisions are exact decimal arithmetic here).
Whitespace is modelled by `Char.isWhitespace`, matching Python `str.split()`
on the ASCII whitespace that occurs in transcripts.
-/

set_option maxRecDepth 8000

namespace YtTranscript

/-- Model identifier constants from `cli.py`. -/
def CLEANUP_MODEL : String := "claude-haiku-4-5-20251001"

def SMART_MODEL : String := "claude-sonnet-4-5-20250929"

def CHUNK_SIZE_WORDS : Nat := 3000

/-- Pricing per million tokens, from `cli.py`. -/
def HAIKU_INPUT_COST : ℚ := 0.80

def HAIKU_OUTPUT_COST : ℚ := 4.00

def SONNET_INPUT_COST : ℚ := 3.00

def SONNET_OUTPUT_COST : ℚ := 15.00

/-- The token-usage counters reported by one API response (`message.usage`). -/
structure Usage where
  input_tokens : Nat
  output_tokens : Nat
deriving DecidableEq, Repr

/-- The mutable global `TokenTracker` of `cli.py`: four per-model running
totals. -/
structure TokenTracker where
  haiku_input : Nat := 0
  haiku_output : Nat := 0
  sonnet_input : Nat := 0
  sonnet_output : Nat := 0
deriving DecidableEq, Repr

/-- `TokenTracker.add(self, usage, model)`: adds the call's counters to the
totals of the model class used (haiku iff `model == CLEANUP_MODEL`). -/
def TokenTracker.add (t : TokenTracker) (usage : Usage) (model : String) :
    TokenTracker :=
  if model == CLEANUP_MODEL then
    { t with haiku_input := t.haiku_input + usage.input_tokens,
             haiku_output := t.haiku_output + usage.output_tokens }
  else
    { t with sonnet_input := t.sonnet_input + usage.input_tokens,
             sonnet_output := t.sonnet_output + usage.output_tokens }

/-- `TokenTracker.total_cost(self)`: the running sum
`Σ tokens / 1_000_000 * rate` over the four counters. -/
def TokenTracker.total_cost (t : TokenTracker) : ℚ :=
  (t.haiku_input : ℚ) / 1000000 * HAIKU_INPUT_COST
    + (t.haiku_output : ℚ) / 1000000 * HAIKU_OUTPUT_COST
    + (t.sonnet_input : ℚ) / 1000000 * SONNET_INPUT_COST
    + (t.sonnet_output : ℚ) / 1000000 * SONNET_OUTPUT_COST

/-- One response of the external generation capability: either the generated
text together with its usage counters, or a ServiceError (`anthropic.APIError`)
carrying a diagnostic message. -/
abbrev GenResult := Except String (String × Usage)

instance {α : Type u} {β : Type v} [DecidableEq α] [DecidableEq β] :
    DecidableEq (Except α β) := fun a b =>
  match a, b with
  | Except.error e, Except.error e2 =>
      if h : e = e2 then isTrue (by rw [h]) else isFalse (by simp [h])
  | Except.ok v, Except.ok v2 =>
      if h : v = v2 then isTrue (by rw [h]) else isFalse (by simp [h])
  | Except.error _, Except.ok _ => isFalse (by simp)
  | Except.ok _, Except.error _ => isFalse (by simp)

/-- The threaded state of the external capability and the process globals:
the trace of responses the service will give to the next calls, the global
`tracker`, and the log of `(prompt, model)` pairs issued so far (the log
records which calls were sent; it does not influence behaviour). -/
structure ClaudeState where
  responses : List GenResult
  tracker : TokenTracker
  calls : List (String × String)
deriving DecidableEq, Repr

/-- `call_claude(prompt, model)`: performs one `client.messages.create` call
(consuming the next trace response), and only after a successful return adds
`message.usage` to the tracker; a raised `APIError` leaves the tracker
untouched.  An exhausted trace is modelled as a transport failure. -/
def call_claude (st : ClaudeState) (prompt : String) (model : String) :
    Except String String × ClaudeState :=
  match st.responses with
  | [] => (Except.error "no response",
           { st with responses := [], calls := st.calls ++ [(prompt, model)] })
  | r :: rest =>
    match r with
    | Except.error e =>
        (Except.error e,
         { st with responses := rest, calls := st.calls ++ [(prompt, model)] })
    | Except.ok (text, usage) =>
        (Except.ok text,
         { responses := rest,
           tracker := st.tracker.add usage model,
           calls := st.calls ++ [(prompt, model)] })

/-- The whole-document cleanup prompt built in the `total == 1` branch of
`clean_transcript`. -/
def wholeCleanupInstruction (chunk : String) : String :=
  "Below is a raw YouTube transcript. Clean it up by adding proper "
    ++ "punctuation, capitalization, and paragraph breaks. Fix obvious "
    ++ "transcription errors where the intended word is clear. Keep the "
    ++ "content exactly as spoken — do not summarize, rephrase, or omit "
    ++ "anything. Do not add any commentary, headers, or notes. Return "
    ++ "only the cleaned transcript text.\n\n" ++ chunk

/-- The per-segment cleanup prompt built in the chunk loop of
`clean_transcript`. -/
def segmentInstruction (chunk : String) : String :=
  "Clean up this transcript segment — add punctuation, paragraphs, "
    ++ "and fix obvious transcription errors. Keep the content exactly as "
    ++ "spoken. This is part of a longer transcript so don\x27t add any "
    ++ "introduction or conclusion.\n\n" ++ chunk

/-- Python `sep.join(xs)`. -/
def pyJoin (sep : String) : List String → String
  | [] => ""
  | [x] => x
  | x :: y :: xs => x ++ sep ++ pyJoin sep (y :: xs)

/-- Python `str.split()` on a character list: split on runs of whitespace,
discarding leading, trailing and repeated separators.  The `fuel` argument
makes the recursion structural (it strictly bounds the number of steps);
`wordsByChars` instantiates it with the list length, which always
suffices. -/
def wordsFuel : Nat → List Char → List (List Char)
  | _, [] => []
  | 0, _ :: _ => []
  | fuel + 1, c :: cs =>
    if c.isWhitespace then wordsFuel fuel cs
    else (c :: cs.takeWhile (fun x => !x.isWhitespace))
        :: wordsFuel fuel (cs.dropWhile (fun x => !x.isWhitespace))

/-- Python `str.split()` on a character list. -/
def wordsByChars (l : List Char) : List (List Char) := wordsFuel l.length l

/-- `text.split()`: the whitespace-delimited words of a string. -/
def wordsOf (s : String) : List String :=
  (wordsByChars s.toList).map (fun w => String.mk w)

/-- `words[i : i + chunk_size]` grouping of `split_into_chunks`: consecutive
groups of at most `chunk_size` words (a zero `chunk_size` is a `ValueError`
in Python; the claims only concern positive thresholds).  Fuel-structured
like `wordsFuel`. -/
def chunkFuel : Nat → List String → Nat → List (List String)
  | _, _, 0 => []
  | _, [], _ + 1 => []
  | 0, _ :: _, _ + 1 => []
  | fuel + 1, w :: ws, n + 1 => (w :: ws.take n) :: chunkFuel fuel (ws.drop n) (n + 1)

/-- The word grouping of `split_into_chunks`. -/
def chunkWords (ws : List String) (n : Nat) : List (List String) :=
  chunkFuel ws.length ws n

/-- `split_into_chunks(text, chunk_size)`: split the text into words, group
them into runs of at most `chunk_size`, and rejoin each group with single
spaces.  `clean_transcript` instantiates `chunk_size` with the default
`CHUNK_SIZE_WORDS`. -/
def split_into_chunks (text : String) (chunk_size : Nat) : List String :=
  (chunkWords (wordsOf text) chunk_size).map (pyJoin " ")

/-- The `for i, chunk in enumerate(chunks)` loop of `clean_transcript`,
with the enumeration index `i`, the `start_chunk` resume bound, the chunk
total and the accumulated `cleaned_parts` made explicit.  Mirrors the body:
carry the raw chunk when `i < start_chunk`; otherwise call the service with
the segment prompt and the cleanup model, appending the result on success;
on `APIError` return the partial join if any part exists, else re-raise. -/
def cleanLoop (st : ClaudeState) (chunks : List String)
    (i start_chunk total : Nat) (cleaned_parts : List String) :
    Except String (String × Nat × Nat) × ClaudeState :=
  match chunks with
  | [] => (Except.ok (pyJoin "\n\n" cleaned_parts, total, total), st)
  | chunk :: rest =>
    if i < start_chunk then
      cleanLoop st rest (i + 1) start_chunk total (cleaned_parts ++ [chunk])
    else
      match call_claude st (segmentInstruction chunk) CLEANUP_MODEL with
      | (Except.ok cleaned, st') =>
          cleanLoop st' rest (i + 1) start_chunk total
            (cleaned_parts ++ [cleaned])
      | (Except.error e, st') =>
          if cleaned_parts.isEmpty then (Except.error e, st')
          else
            (Except.ok (pyJoin "\n\n" cleaned_parts, i, total), st')

/-- `clean_transcript(raw_text, start_chunk)`: split into chunks (the code
fixes the threshold to `CHUNK_SIZE_WORDS` via the default argument of
`split_into_chunks`; it is a parameter here so the claims can quantify over
it), take the single whole-document call when there is exactly one chunk,
and otherwise run the chunk loop.  Returns `(cleaned_text, completed, total)`
or the propagated error, together with the final service/tracker state. -/
def clean_transcript (st : ClaudeState) (raw_text : String)
    (chunk_size : Nat) (start_chunk : Nat) :
    Except String (String × Nat × Nat) × ClaudeState :=
  let chunks := split_into_chunks raw_text chunk_size
  let total := chunks.length
  if total = 1 then
    match call_claude st (wholeCleanupInstruction (chunks.headD ""))
        CLEANUP_MODEL with
    | (Except.ok cleaned, st') => (Except.ok (cleaned, total, total), st')
    | (Except.error e, st') => (Except.error e, st')
  else
    cleanLoop st chunks 0 start_chunk total []

/-- A successful response with the given text and usage. -/
def mkOk (t : String) (u : Usage) : GenResult := Except.ok (t, u)

/-- A trace of successful responses pairing texts with usages. -/
def okResponses (texts : List String) (usages : List Usage) :
    List GenResult :=
  List.zipWith mkOk texts usages

/-- Fold a list of usage records into the tracker under one model. -/
def addAll (t : TokenTracker) (us : List Usage) (m : String) : TokenTracker :=
  us.foldl (fun acc u => acc.add u m) t

/-- The `(prompt, model)` calls the chunk loop issues for a list of chunks. -/
def segmentCalls (chunks : List String) : List (String × String) :=
  chunks.map (fun c => (segmentInstruction c, CLEANUP_MODEL))

/-! ### Ledger lemmas -/

/-- A generic sequence of `tracker.add` calls. -/
def applyRecords (t : TokenTracker) (cs : List (Usage × String)) :
    TokenTracker :=
  cs.foldl (fun acc p => acc.add p.1 p.2) t

theorem add_le_haiku_input (t : TokenTracker) (u : Usage) (m : String) :
    t.haiku_input ≤ (t.add u m).haiku_input ∧
      t.haiku_output ≤ (t.add u m).haiku_output ∧
      t.sonnet_input ≤ (t.add u m).sonnet_input ∧
      t.sonnet_output ≤ (t.add u m).sonnet_output := by
  unfold TokenTracker.add
  split <;> simp

theorem applyRecords_mono (t : TokenTracker) (cs : List (Usage × String)) :
    t.haiku_input ≤ (applyRecords t cs).haiku_input ∧
      t.haiku_output ≤ (applyRecords t cs).haiku_output ∧
      t.sonnet_input ≤ (applyRecords t cs).sonnet_input ∧
      t.sonnet_output ≤ (applyRecords t cs).sonnet_output := by
  induction cs generalizing t with
  | nil => simp [applyRecords]
  | cons c cs ih =>
    have hstep := add_le_haiku_input t c.1 c.2
    have htail := ih (t.add c.1 c.2)
    simp only [applyRecords, List.foldl_cons] at htail ⊢
    exact ⟨hstep.1.trans htail.1, hstep.2.1.trans htail.2.1,
      hstep.2.2.1.trans htail.2.2.1, hstep.2.2.2.trans htail.2.2.2⟩

/-! ### Chunker lemmas -/

theorem takeWhile_append_of_all {p : α → Bool} :
    ∀ (w t : List α), (∀ c ∈ w, p c = true) →
      (w ++ t).takeWhile p = w ++ t.takeWhile p := by
  intro w t h
  induction w with
  | nil => simp
  | cons c w ih =>
    have hc : p c = true := h c (List.mem_cons_self c w)
    simp [List.takeWhile_cons, hc, ih fun x hx => h x (List.mem_cons_of_mem c hx)]

theorem dropWhile_append_of_all {p : α → Bool} :
    ∀ (w t : List α), (∀ c ∈ w, p c = true) →
      (w ++ t).dropWhile p = t.dropWhile p := by
  intro w t h
  induction w with
  | nil => simp
  | cons c w ih =>
    have hc : p c = true := h c (List.mem_cons_self c w)
    simp [List.dropWhile_cons, hc, ih fun x hx => h x (List.mem_cons_of_mem c hx)]

theorem takeWhile_headWs (t : List Char)
    (ht : ∀ c, t.head? = some c → c.isWhitespace = true) :
    t.takeWhile (fun x => !x.isWhitespace) = [] := by
  cases t with
  | nil => rfl
  | cons c u =>
    have := ht c rfl
    simp [List.takeWhile_cons, this]

theorem dropWhile_headWs (t : List Char)
    (ht : ∀ c, t.head? = some c → c.isWhitespace = true) :
    t.dropWhile (fun x => !x.isWhitespace) = t := by
  cases t with
  | nil => rfl
  | cons c u =>
    have := ht c rfl
    simp [List.dropWhile_cons, this]

theorem mem_of_mem_takeWhile {p : α → Bool} :
    ∀ (l : List α) (x : α), x ∈ l.takeWhile p → p x = true := by
  intro l
  induction l with
  | nil => intro x hx; simp [List.takeWhile] at hx
  | cons c u ih =>
    intro x hx
    rw [List.takeWhile_cons] at hx
    by_cases hc : p c = true
    · simp [hc] at hx
      rcases hx with h | h
      · rw [h]; exact hc
      · exact ih x h
    · simp [Bool.of_not_eq_true hc] at hx

/-- The fuel in `wordsFuel` is irrelevant as long as it covers the list
length. -/
theorem wordsFuel_fuel_eq :
    ∀ (f1 : Nat) (f2 : Nat) (l : List Char), l.length ≤ f1 → l.length ≤ f2 →
      wordsFuel f1 l = wordsFuel f2 l := by
  intro f1
  induction f1 with
  | zero =>
    intro f2 l h1 _
    have : l = [] := List.length_eq_zero.mp (Nat.le_zero.mp h1)
    subst this
    cases f2 <;> rfl
  | succ f ih =>
    intro f2 l h1 h2
    cases l with
    | nil => cases f2 <;> rfl
    | cons c cs =>
      cases f2 with
      | zero => simp at h2
      | succ g =>
        simp only [wordsFuel]
        by_cases hc : c.isWhitespace
        · rw [if_pos hc, if_pos hc]
          exact ih g cs (by simp at h1; omega) (by simp at h2; omega)
        · rw [if_neg hc, if_neg hc]
          have hd := List.Sublist.length_le
            (List.dropWhile_sublist (l := cs) (fun x => !x.isWhitespace))
          exact congrArg _ (ih g _ (by simp at h1; omega) (by simp at h2; omega))

theorem wordsByChars_nil : wordsByChars [] = [] := rfl

/-- The natural unfolding of `wordsByChars` on a cons cell. -/
theorem wordsByChars_cons (c : Char) (cs : List Char) :
    wordsByChars (c :: cs) =
      if c.isWhitespace then wordsByChars cs
      else (c :: cs.takeWhile (fun x => !x.isWhitespace))
          :: wordsByChars (cs.dropWhile (fun x => !x.isWhitespace)) := by
  show wordsFuel (cs.length + 1) (c :: cs) = _
  simp only [wordsFuel]
  by_cases hc : c.isWhitespace
  · rw [if_pos hc, if_pos hc]; rfl
  · rw [if_neg hc, if_neg hc]
    refine congrArg _ (wordsFuel_fuel_eq _ _ _ ?_ le_rfl)
    exact List.Sublist.length_le (List.dropWhile_sublist _)

/-- Every word produced by `wordsByChars` is nonempty and whitespace-free. -/
theorem wordsFuel_words :
    ∀ (f : Nat) (l : List Char), ∀ w ∈ wordsFuel f l,
      w ≠ [] ∧ ∀ c ∈ w, c.isWhitespace = false := by
  intro f
  induction f with
  | zero => intro l w hw; cases l <;> simp [wordsFuel] at hw
  | succ f ih =>
    intro l w hw
    cases l with
    | nil => simp [wordsFuel] at hw
    | cons c cs =>
      simp only [wordsFuel] at hw
      by_cases hc : c.isWhitespace
      · rw [if_pos hc] at hw
        exact ih cs w hw
      · rw [if_neg hc] at hw
        rcases List.mem_cons.mp hw with h | h
        · subst h
          refine ⟨by simp, ?_⟩
          intro x hx
          rcases List.mem_cons.mp hx with h' | h'
          · subst h'; exact Bool.of_not_eq_true hc
          · have := mem_of_mem_takeWhile _ x h'
            simpa using this
        · exact ih _ w h

theorem wordsByChars_words (l : List Char) :
    ∀ w ∈ wordsByChars l, w ≠ [] ∧ ∀ c ∈ w, c.isWhitespace = false :=
  wordsFuel_words l.length l

/-- Splitting a whitespace-free word followed by nothing or by whitespace
recovers the word. -/
theorem wordsByChars_word_append (w t : List Char) (hne : w ≠ [])
    (hw : ∀ c ∈ w, c.isWhitespace = false)
    (ht : ∀ c, t.head? = some c → c.isWhitespace = true) :
    wordsByChars (w ++ t) = w :: wordsByChars t := by
  cases w with
  | nil => exact absurd rfl hne
  | cons c w' =>
    have hc : c.isWhitespace = false := hw c (List.mem_cons_self c w')
    have hw' : ∀ x ∈ w', (fun x => !x.isWhitespace) x = true := by
      intro x hx
      simp [hw x (List.mem_cons_of_mem c hx)]
    rw [List.cons_append, wordsByChars_cons, if_neg (by simp [hc])]
    rw [takeWhile_append_of_all w' t hw', dropWhile_append_of_all w' t hw']
    rw [takeWhile_headWs t ht, dropWhile_headWs t ht, List.append_nil]

theorem string_toList_append (a b : String) :
    (a ++ b).toList = a.toList ++ b.toList := by
  simp [String.toList]

theorem space_toList : (" " : String).toList = [' '] := by decide

theorem empty_toList : ("" : String).toList = [] := by decide

/-- Rejoining nonempty whitespace-free words with single spaces and
re-splitting recovers exactly the words. -/
theorem wordsOf_pyJoin_space :
    ∀ g : List String,
      (∀ w ∈ g, w.toList ≠ [] ∧ ∀ c ∈ w.toList, c.isWhitespace = false) →
      wordsOf (pyJoin " " g) = g := by
  intro g
  induction g with
  | nil =>
    intro _
    show wordsOf "" = []
    rw [wordsOf, empty_toList, wordsByChars_nil]
    rfl
  | cons w g' ih =>
    intro h
    have hw := h w (List.mem_cons_self w g')
    cases g' with
    | nil =>
      show wordsOf w = [w]
      unfold wordsOf
      have : wordsByChars (w.toList ++ []) = w.toList :: wordsByChars [] :=
        wordsByChars_word_append w.toList [] hw.1 hw.2 (by intro c hc; simp at hc)
      rw [List.append_nil] at this
      rw [this, wordsByChars_nil]
      simp
    | cons w' g'' =>
      have step : pyJoin " " (w :: w' :: g'') = w ++ " " ++ pyJoin " " (w' :: g'') := rfl
      have htl : (w ++ " " ++ pyJoin " " (w' :: g'')).toList
          = w.toList ++ (' ' :: (pyJoin " " (w' :: g'')).toList) := by
        rw [string_toList_append, string_toList_append, space_toList,
          List.append_assoc]
        rfl
      unfold wordsOf
      rw [step, htl]
      rw [wordsByChars_word_append w.toList _ hw.1 hw.2
        (by intro c hc; simp at hc; rw [← hc]; rfl)]
      have hsp : wordsByChars (' ' :: (pyJoin " " (w' :: g'')).toList)
          = wordsByChars (pyJoin " " (w' :: g'')).toList := by
        rw [wordsByChars_cons, if_pos (by rfl)]
      rw [hsp]
      have := ih (fun x hx => h x (List.mem_cons_of_mem w hx))
      unfold wordsOf at this
      rw [List.map_cons, this]
      simp

/-- The fuel in `chunkFuel` is irrelevant as long as it covers the list
length. -/
theorem chunkFuel_fuel_eq :
    ∀ (f1 : Nat) (f2 : Nat) (ws : List String) (n : Nat),
      ws.length ≤ f1 → ws.length ≤ f2 →
      chunkFuel f1 ws n = chunkFuel f2 ws n := by
  intro f1
  induction f1 with
  | zero =>
    intro f2 ws n h1 _
    have : ws = [] := List.length_eq_zero.mp (Nat.le_zero.mp h1)
    subst this
    cases f2 <;> cases n <;> rfl
  | succ f ih =>
    intro f2 ws n h1 h2
    cases ws with
    | nil => cases f2 <;> cases n <;> rfl
    | cons w ws' =>
      cases n with
      | zero => cases f2 <;> rfl
      | succ n' =>
        cases f2 with
        | zero => simp at h2
        | succ g =>
          simp only [chunkFuel]
          refine congrArg _ (ih g _ _ ?_ ?_) <;>
            simp only [List.length_drop] <;> simp at h1 h2 <;> omega

theorem chunkWords_zero (ws : List String) : chunkWords ws 0 = [] := by
  cases ws <;> rfl

theorem chunkWords_nil (n : Nat) : chunkWords [] n = [] := by
  cases n <;> rfl

/-- The natural unfolding of `chunkWords` on a cons cell. -/
theorem chunkWords_cons (w : String) (ws : List String) (n : Nat) :
    chunkWords (w :: ws) (n + 1) =
      (w :: ws.take n) :: chunkWords (ws.drop n) (n + 1) := by
  show chunkFuel (ws.length + 1) (w :: ws) (n + 1) = _
  simp only [chunkFuel]
  refine congrArg _ (chunkFuel_fuel_eq _ _ _ _ ?_ le_rfl)
  simp only [List.length_drop]
  omega

/-- Grouping words into chunks loses and reorders nothing. -/
theorem chunkWords_flatten :
    ∀ (ws : List String) (n : Nat), 0 < n →
      (chunkWords ws n).flatten = ws := by
  have key : ∀ (f : Nat) (ws : List String) (n : Nat), ws.length ≤ f →
      0 < n → (chunkFuel f ws n).flatten = ws := by
    intro f
    induction f with
    | zero =>
      intro ws n h1 _
      have : ws = [] := List.length_eq_zero.mp (Nat.le_zero.mp h1)
      subst this
      cases n <;> rfl
    | succ f ih =>
      intro ws n h1 hn
      cases ws with
      | nil => cases n <;> rfl
      | cons w ws' =>
        cases n with
        | zero => omega
        | succ n' =>
          simp only [chunkFuel, List.flatten_cons]
          rw [ih _ _ (by simp at h1; simp only [List.length_drop]; omega) hn]
          exact congrArg (w :: ·) (List.take_append_drop n' ws')
  intro ws n hn
  exact key ws.length ws n le_rfl hn

/-- Each chunk group is nonempty and holds at most `n` words. -/
theorem chunkWords_groups :
    ∀ (ws : List String) (n : Nat), ∀ g ∈ chunkWords ws n,
      g ≠ [] ∧ g.length ≤ n := by
  have key : ∀ (f : Nat) (ws : List String) (n : Nat), ∀ g ∈ chunkFuel f ws n,
      g ≠ [] ∧ g.length ≤ n := by
    intro f
    induction f with
    | zero => intro ws n g hg; cases ws <;> cases n <;> simp [chunkFuel] at hg
    | succ f ih =>
      intro ws n g hg
      cases ws with
      | nil => cases n <;> simp [chunkFuel] at hg
      | cons w ws' =>
        cases n with
        | zero => simp [chunkFuel] at hg
        | succ n' =>
          simp only [chunkFuel] at hg
          rcases List.mem_cons.mp hg with h | h
          · subst h
            refine ⟨by simp, ?_⟩
            simp only [List.length_cons, List.length_take]
            omega
          · exact ih _ _ g h
  intro ws n
  exact key ws.length ws n

/-- Every word returned by `wordsOf` is nonempty and whitespace-free. -/
theorem wordsOf_words (s : String) :
    ∀ w ∈ wordsOf s, w.toList ≠ [] ∧ ∀ c ∈ w.toList, c.isWhitespace = false := by
  intro w hw
  rcases List.mem_map.mp hw with ⟨w', hw', rfl⟩
  have h := wordsByChars_words s.toList w' hw'
  exact ⟨h.1, h.2⟩

/-- The words of every chunk group of a transcript are nonempty and
whitespace-free. -/
theorem chunk_group_words (text : String) (n : Nat) (hn : 0 < n) :
    ∀ g ∈ chunkWords (wordsOf text) n,
      ∀ x ∈ g, x.toList ≠ [] ∧ ∀ c ∈ x.toList, c.isWhitespace = false := by
  intro g hg x hx
  have hmem : x ∈ wordsOf text := by
    rw [← chunkWords_flatten (wordsOf text) n hn]
    exact List.mem_flatten_of_mem hg hx
  exact wordsOf_words text x hmem

/-- One word of the transcript with threshold matching the word count gives
exactly one chunk group, holding all the words. -/
theorem chunkWords_exact (ws : List String) (n : Nat) (hn : 0 < n)
    (hlen : ws.length = n) : chunkWords ws n = [ws] := by
  cases n with
  | zero => omega
  | succ n' =>
    cases ws with
    | nil => simp at hlen
    | cons w ws' =>
      rw [chunkWords_cons]
      have hl : ws'.length = n' := by simp at hlen; omega
      rw [List.take_of_length_le (by omega), List.drop_eq_nil_of_le (by omega)]
      rw [chunkWords_nil]

/-! ### Transform-invoker lemmas -/

/-- `call_claude` on a successful response: returns the text, consumes the
response, records usage, logs the call. -/
theorem call_claude_ok (st : ClaudeState) (p m text : String) (u : Usage)
    (restR : List GenResult) (h : st.responses = mkOk text u :: restR) :
    call_claude st p m =
      (Except.ok text,
       ⟨restR, st.tracker.add u m, st.calls ++ [(p, m)]⟩) := by
  unfold call_claude
  rw [h]
  rfl

/-- `call_claude` on a failing response: propagates the error, consumes the
response, leaves the tracker untouched, logs the call. -/
theorem call_claude_err (st : ClaudeState) (p m e : String)
    (restR : List GenResult) (h : st.responses = Except.error e :: restR) :
    call_claude st p m =
      (Except.error e,
       ⟨restR, st.tracker, st.calls ++ [(p, m)]⟩) := by
  unfold call_claude
  rw [h]

/-! ### Pipeline loop lemmas -/

theorem cleanLoop_nil (st : ClaudeState) (i s total : Nat)
    (acc : List String) :
    cleanLoop st [] i s total acc =
      (Except.ok (pyJoin "\n\n" acc, total, total), st) := rfl

theorem cleanLoop_skip (st : ClaudeState) (c : String) (rest : List String)
    (i s total : Nat) (acc : List String) (h : i < s) :
    cleanLoop st (c :: rest) i s total acc =
      cleanLoop st rest (i + 1) s total (acc ++ [c]) := by
  simp only [cleanLoop]
  rw [if_pos h]

/-- Carrying a whole prefix of chunks below the resume index. -/
theorem cleanLoop_skipN :
    ∀ (pre rest : List String) (st : ClaudeState) (i s total : Nat)
      (acc : List String), i + pre.length ≤ s →
      cleanLoop st (pre ++ rest) i s total acc =
        cleanLoop st rest (i + pre.length) s total (acc ++ pre) := by
  intro pre
  induction pre with
  | nil => intro rest st i s total acc _; simp
  | cons c pre ih =>
    intro rest st i s total acc h
    simp only [List.length_cons] at h
    rw [List.cons_append, cleanLoop_skip st c _ i s total acc (by omega)]
    rw [ih rest st (i + 1) s total (acc ++ [c]) (by omega)]
    rw [show i + 1 + pre.length = i + (pre.length + 1) from by omega]
    rw [List.append_cons acc c pre]
    rfl

/-- Running the loop over chunks whose calls all succeed: the texts are
appended in order, the usages accumulated, the calls logged. -/
theorem cleanLoop_ok_steps :
    ∀ (mid texts : List String) (usages : List Usage) (rest2 : List String)
      (st : ClaudeState) (i s total : Nat) (acc : List String)
      (restR : List GenResult), s ≤ i → mid.length = texts.length →
      texts.length = usages.length →
      st.responses = okResponses texts usages ++ restR →
      cleanLoop st (mid ++ rest2) i s total acc =
        cleanLoop
          ⟨restR, addAll st.tracker usages CLEANUP_MODEL,
           st.calls ++ segmentCalls mid⟩
          rest2 (i + mid.length) s total (acc ++ texts) := by
  intro mid
  induction mid with
  | nil =>
    intro texts usages rest2 st i s total acc restR _ hlt hlu hresp
    have htn : texts = [] := by
      cases texts with
      | nil => rfl
      | cons a b => simp at hlt
    subst htn
    have hun : usages = [] := by
      cases usages with
      | nil => rfl
      | cons a b => simp at hlu
    subst hun
    simp only [okResponses, List.zipWith_nil_left, List.nil_append] at hresp
    obtain ⟨r, t, c⟩ := st
    simp only at hresp
    subst hresp
    simp [addAll, segmentCalls]
  | cons ch mid ih =>
    intro texts usages rest2 st i s total acc restR hsi hlt hlu hresp
    cases texts with
    | nil => simp at hlt
    | cons t ts =>
      cases usages with
      | nil => simp at hlu
      | cons u us =>
        have hresp' : st.responses = mkOk t u :: (okResponses ts us ++ restR) := by
          simpa [okResponses] using hresp
        rw [List.cons_append]
        simp only [cleanLoop]
        rw [if_neg (by omega)]
        rw [call_claude_ok st _ _ t u _ hresp']
        show cleanLoop
            ⟨okResponses ts us ++ restR, st.tracker.add u CLEANUP_MODEL,
             st.calls ++ [(segmentInstruction ch, CLEANUP_MODEL)]⟩
            (mid ++ rest2) (i + 1) s total (acc ++ [t]) = _
        rw [ih ts us rest2 _ (i + 1) s total (acc ++ [t])
          restR (by omega) (by simpa using hlt) (by simpa using hlu) rfl]
        rw [show i + 1 + mid.length = i + (mid.length + 1) from by omega]
        rw [List.append_cons acc t ts]
        have haddAll : addAll (st.tracker.add u CLEANUP_MODEL) us CLEANUP_MODEL
            = addAll st.tracker (u :: us) CLEANUP_MODEL := rfl
        rw [haddAll]
        have hcalls : st.calls ++ [(segmentInstruction ch, CLEANUP_MODEL)]
              ++ segmentCalls mid
            = st.calls ++ segmentCalls (ch :: mid) := by
          simp [segmentCalls]
        rw [hcalls]
        rfl

/-- The loop facing a failing call at the current index. -/
theorem cleanLoop_fail (st : ClaudeState) (c : String) (rest : List String)
    (i s total : Nat) (acc : List String) (e : String)
    (restR : List GenResult) (hsi : s ≤ i)
    (hresp : st.responses = Except.error e :: restR) :
    cleanLoop st (c :: rest) i s total acc =
      (if acc.isEmpty then Except.error e
       else Except.ok (pyJoin "\n\n" acc, i, total),
       ⟨restR, st.tracker,
        st.calls ++ [(segmentInstruction c, CLEANUP_MODEL)]⟩) := by
  simp only [cleanLoop]
  rw [if_neg (by omega)]
  rw [call_claude_err st _ _ e _ hresp]
  by_cases hacc : acc.isEmpty = true <;> simp [hacc]

/-! ### Pipeline characterizations -/

/-- The single-chunk branch of `clean_transcript` on a successful call. -/
theorem clean_single_ok (st : ClaudeState) (raw : String) (n s : Nat)
    (c text : String) (u : Usage) (restR : List GenResult)
    (hchunks : split_into_chunks raw n = [c])
    (hresp : st.responses = mkOk text u :: restR) :
    clean_transcript st raw n s =
      (Except.ok (text, 1, 1),
       ⟨restR, st.tracker.add u CLEANUP_MODEL,
        st.calls ++ [(wholeCleanupInstruction c, CLEANUP_MODEL)]⟩) := by
  unfold clean_transcript
  rw [hchunks]
  simp only [List.length_cons, List.length_nil, if_pos rfl, List.headD_cons]
  rw [call_claude_ok st _ _ text u _ hresp]
  simp

/-- The single-chunk branch of `clean_transcript` on a failing call. -/
theorem clean_single_err (st : ClaudeState) (raw : String) (n s : Nat)
    (c e : String) (restR : List GenResult)
    (hchunks : split_into_chunks raw n = [c])
    (hresp : st.responses = Except.error e :: restR) :
    clean_transcript st raw n s =
      (Except.error e,
       ⟨restR, st.tracker,
        st.calls ++ [(wholeCleanupInstruction c, CLEANUP_MODEL)]⟩) := by
  unfold clean_transcript
  rw [hchunks]
  simp only [List.length_cons, List.length_nil, if_pos rfl, List.headD_cons]
  rw [call_claude_err st _ _ e _ hresp]
  simp

/-- `clean_transcript` away from the single-chunk branch is the loop. -/
theorem clean_transcript_loop (st : ClaudeState) (raw : String) (n s : Nat)
    (h : (split_into_chunks raw n).length ≠ 1) :
    clean_transcript st raw n s =
      cleanLoop st (split_into_chunks raw n) 0 s
        (split_into_chunks raw n).length [] := by
  unfold clean_transcript
  rw [if_neg h]

/-- Running the loop to completion over chunks whose calls all succeed. -/
theorem cleanLoop_ok_run (mid texts : List String) (usages : List Usage)
    (st : ClaudeState) (i s total : Nat) (acc : List String)
    (restR : List GenResult) (hsi : s <= i)
    (hlt : mid.length = texts.length) (hlu : texts.length = usages.length)
    (hresp : st.responses = okResponses texts usages ++ restR) :
    cleanLoop st mid i s total acc =
      (Except.ok (pyJoin "\n\n" (acc ++ texts), total, total),
       ⟨restR, addAll st.tracker usages CLEANUP_MODEL,
        st.calls ++ segmentCalls mid⟩) := by
  have h := cleanLoop_ok_steps mid texts usages [] st i s total acc restR
    hsi hlt hlu hresp
  rw [List.append_nil] at h
  rw [h, cleanLoop_nil]

/-- Master success run of a multi-chunk pipeline, from any resume index:
chunks below `j` are carried verbatim, those from `j` on are transformed in
order, everything is rejoined with blank lines. -/
theorem clean_multi_ok (st : ClaudeState) (raw : String) (n j : Nat)
    (texts : List String) (usages : List Usage) (restR : List GenResult)
    (h2 : 2 <= (split_into_chunks raw n).length)
    (hlt : texts.length = (split_into_chunks raw n).length - j)
    (hlu : usages.length = texts.length)
    (hresp : st.responses = okResponses texts usages ++ restR) :
    clean_transcript st raw n j =
      (Except.ok (pyJoin "\n\n" ((split_into_chunks raw n).take j ++ texts),
        (split_into_chunks raw n).length, (split_into_chunks raw n).length),
       ⟨restR, addAll st.tracker usages CLEANUP_MODEL,
        st.calls ++ segmentCalls ((split_into_chunks raw n).drop j)⟩) := by
  rw [clean_transcript_loop st raw n j (by omega)]
  set C := split_into_chunks raw n with hCdef
  rcases le_or_lt j C.length with hjk | hjk
  · have hlen : (C.take j).length = j := by rw [List.length_take]; omega
    have hA : cleanLoop st C 0 j C.length [] =
        cleanLoop st (C.take j ++ C.drop j) 0 j C.length [] := by
      rw [List.take_append_drop]
    have hB := cleanLoop_skipN (C.take j) (C.drop j) st 0 j C.length []
      (by omega)
    have hC2 := cleanLoop_ok_run (C.drop j) texts usages st
      (0 + (C.take j).length) j C.length ([] ++ C.take j) restR (by omega)
      (by rw [List.length_drop]; omega) hlu.symm hresp
    rw [hA, hB, hC2, List.nil_append]
  · have htn : texts = [] := by
      cases texts with
      | nil => rfl
      | cons a b => simp at hlt; omega
    subst htn
    have hun : usages = [] := by
      cases usages with
      | nil => rfl
      | cons a b => simp at hlu
    subst hun
    simp only [okResponses, List.zipWith_nil_left, List.nil_append] at hresp
    have hA : cleanLoop st C 0 j C.length [] =
        cleanLoop st (C ++ []) 0 j C.length [] := by
      rw [List.append_nil]
    have hB := cleanLoop_skipN C [] st 0 j C.length [] (by omega)
    rw [hA, hB, cleanLoop_nil, List.nil_append]
    rw [List.take_of_length_le (by omega), List.drop_eq_nil_of_le (by omega)]
    obtain ⟨r, t, c⟩ := st
    simp only at hresp
    subst hresp
    simp [addAll, segmentCalls]

/-- Master failing run of a multi-chunk pipeline: the calls for indices
`s..f-1` succeed, the call at `f` fails; the loop stops there with the
accumulated parts (or re-raises when none exist). -/
theorem clean_multi_fail (st : ClaudeState) (raw : String) (n s f : Nat)
    (texts : List String) (usages : List Usage) (e : String)
    (restR : List GenResult)
    (h2 : 2 <= (split_into_chunks raw n).length) (hsf : s <= f)
    (hfk : f < (split_into_chunks raw n).length)
    (hlt : texts.length = f - s) (hlu : usages.length = texts.length)
    (hresp : st.responses = okResponses texts usages
      ++ Except.error e :: restR) :
    clean_transcript st raw n s =
      (if ((split_into_chunks raw n).take s ++ texts).isEmpty then
        Except.error e
       else Except.ok
        (pyJoin "\n\n" ((split_into_chunks raw n).take s ++ texts), f,
         (split_into_chunks raw n).length),
       ⟨restR, addAll st.tracker usages CLEANUP_MODEL,
        st.calls
          ++ segmentCalls (((split_into_chunks raw n).drop s).take (f - s))
          ++ [(segmentInstruction (((split_into_chunks raw n).drop f).headD ""),
               CLEANUP_MODEL)]⟩) := by
  rw [clean_transcript_loop st raw n s (by omega)]
  set C := split_into_chunks raw n with hCdef
  have hlen : (C.take s).length = s := by rw [List.length_take]; omega
  have hA : cleanLoop st C 0 s C.length [] =
      cleanLoop st (C.take s ++ C.drop s) 0 s C.length [] := by
    rw [List.take_append_drop]
  have hB := cleanLoop_skipN (C.take s) (C.drop s) st 0 s C.length []
    (by omega)
  have hmid : C.drop s = (C.drop s).take (f - s) ++ C.drop f := by
    have h1 := List.take_append_drop (f - s) (C.drop s)
    have h2x : (C.drop s).drop (f - s) = C.drop f := by
      rw [List.drop_drop]
      congr 1
      omega
    rw [h2x] at h1
    exact h1.symm
  have hB2 : cleanLoop st (C.drop s) (0 + (C.take s).length) s C.length
        ([] ++ C.take s)
      = cleanLoop st ((C.drop s).take (f - s) ++ C.drop f)
        (0 + (C.take s).length) s C.length ([] ++ C.take s) := by
    rw [← hmid]
  have hmlen : ((C.drop s).take (f - s)).length = f - s := by
    rw [List.length_take, List.length_drop]
    omega
  have hC2 := cleanLoop_ok_steps ((C.drop s).take (f - s)) texts usages
    (C.drop f) st (0 + (C.take s).length) s C.length ([] ++ C.take s)
    (Except.error e :: restR) (by omega) (by omega) hlu.symm hresp
  have hdropf : C.drop f = (C.drop f).headD "" :: C.drop (f + 1) := by
    rw [List.drop_eq_getElem_cons hfk]
    rfl
  have hD := cleanLoop_fail
    ⟨Except.error e :: restR, addAll st.tracker usages CLEANUP_MODEL,
     st.calls ++ segmentCalls ((C.drop s).take (f - s))⟩
    ((C.drop f).headD "") (C.drop (f + 1))
    (0 + (C.take s).length + ((C.drop s).take (f - s)).length) s C.length
    (([] ++ C.take s) ++ texts) e restR (by omega) rfl
  rw [hA, hB, hB2, hC2]
  conv =>
    lhs
    rw [hdropf]
  rw [hD, List.nil_append]
  rw [show 0 + (C.take s).length + ((C.drop s).take (f - s)).length = f
    from by omega]

/-- A failing multi-chunk run that has at least one accumulated part returns
the partial outcome (first component), whose part list has length `f`, and
consumes no responses past the failing call. -/
theorem clean_multi_fail_pos (st : ClaudeState) (raw : String) (n s f : Nat)
    (texts : List String) (usages : List Usage) (e : String)
    (restR : List GenResult)
    (h2 : 2 <= (split_into_chunks raw n).length) (hsf : s <= f) (hf : 0 < f)
    (hfk : f < (split_into_chunks raw n).length)
    (hlt : texts.length = f - s) (hlu : usages.length = texts.length)
    (hresp : st.responses = okResponses texts usages
      ++ Except.error e :: restR) :
    (clean_transcript st raw n s).1 =
      Except.ok (pyJoin "\n\n" ((split_into_chunks raw n).take s ++ texts),
        f, (split_into_chunks raw n).length) ∧
    ((split_into_chunks raw n).take s ++ texts).length = f ∧
    (clean_transcript st raw n s).2.responses = restR := by
  have hmain := clean_multi_fail st raw n s f texts usages e restR
    h2 hsf hfk hlt hlu hresp
  have hlen : ((split_into_chunks raw n).take s ++ texts).length = f := by
    rw [List.length_append, List.length_take]
    omega
  have hne : ((split_into_chunks raw n).take s ++ texts).isEmpty = false := by
    rw [List.isEmpty_eq_false]
    intro hnil
    rw [hnil] at hlen
    simp at hlen
    omega
  rw [hmain]
  refine ⟨?_, hlen, rfl⟩
  simp only [hne, Bool.false_eq_true, if_false]

/-! ### Claim theorems -/

/-- C1: in a multi-segment run where the transform call fails at segment
index `f > 0` after all earlier indices produced results (carried-through
segments below the resume index `s`, successful transforms from `s` to
`f - 1`), `clean_transcript` stops immediately and returns a partial outcome
with `completed = f`, `total` the segment count, and a partial result that is
exactly the `f` results for indices `0..f-1` in order, gap-free. -/
theorem clean_failure_midrun (st : ClaudeState) (raw : String) (n s f : Nat)
    (texts : List String) (usages : List Usage) (e : String)
    (restR : List GenResult)
    (h2 : 2 <= (split_into_chunks raw n).length) (hsf : s <= f) (hf : 0 < f)
    (hfk : f < (split_into_chunks raw n).length)
    (hlt : texts.length = f - s) (hlu : usages.length = texts.length)
    (hresp : st.responses = okResponses texts usages
      ++ Except.error e :: restR) :
    (clean_transcript st raw n s).1 =
      Except.ok (pyJoin "\n\n" ((split_into_chunks raw n).take s ++ texts),
        f, (split_into_chunks raw n).length) ∧
    ((split_into_chunks raw n).take s ++ texts).length = f ∧
    (clean_transcript st raw n s).2.responses = restR :=
  clean_multi_fail_pos st raw n s f texts usages e restR
    h2 hsf hf hfk hlt hlu hresp

/-- Witness for C1: raw text `"a b c d e f"`, threshold 2 gives chunks
`["a b", "c d", "e f"]`; the first call succeeds with `"A B"`, the second
raises, so the outcome is partial with `completed = 1`, `total = 3` and the
single part `"A B"`. -/
theorem clean_failure_midrun_instance :
    (2 <= (split_into_chunks "a b c d e f" 2).length ∧ (0 : Nat) <= 1 ∧
      (0 : Nat) < 1 ∧ 1 < (split_into_chunks "a b c d e f" 2).length) ∧
    ((clean_transcript
        ⟨[mkOk "A B" ⟨3, 2⟩, Except.error "boom"], ⟨0, 0, 0, 0⟩, []⟩
        "a b c d e f" 2 0).1 =
      Except.ok
        (pyJoin "\n\n" ((split_into_chunks "a b c d e f" 2).take 0 ++ ["A B"]),
          1, (split_into_chunks "a b c d e f" 2).length) ∧
     ((split_into_chunks "a b c d e f" 2).take 0 ++ ["A B"]).length = 1 ∧
     (clean_transcript
        ⟨[mkOk "A B" ⟨3, 2⟩, Except.error "boom"], ⟨0, 0, 0, 0⟩, []⟩
        "a b c d e f" 2 0).2.responses = []) :=
  ⟨⟨by decide, by decide, by decide, by decide⟩,
   clean_failure_midrun
     ⟨[mkOk "A B" ⟨3, 2⟩, Except.error "boom"], ⟨0, 0, 0, 0⟩, []⟩
     "a b c d e f" 2 0 1 ["A B"] [⟨3, 2⟩] "boom" []
     (by decide) (by decide) (by decide) (by decide) rfl rfl rfl⟩

/-- C2 counterexample: the claim quantifies over every transcript and every
resume index, but on a single-segment transcript (`k = 1`) with
`resume_from = 1` the code takes the single-chunk branch, which ignores the
resume index: segment 0 is sent to the transform capability (one whole-document
call is logged) and the transformed text `"CLEANED"`, not the raw text
`"hello"`, is returned. -/
theorem clean_resume_single_segment_cex :
    split_into_chunks "hello" 3000 = ["hello"] ∧
    (clean_transcript ⟨[mkOk "CLEANED" ⟨10, 5⟩], ⟨0, 0, 0, 0⟩, []⟩
        "hello" 3000 1).1 = Except.ok ("CLEANED", 1, 1) ∧
    (clean_transcript ⟨[mkOk "CLEANED" ⟨10, 5⟩], ⟨0, 0, 0, 0⟩, []⟩
        "hello" 3000 1).2.calls
      = [(wholeCleanupInstruction "hello", CLEANUP_MODEL)] := by
  refine ⟨by decide, by decide, by decide⟩

/-- C2 (amended): for transcripts that split into `k >= 2` segments and any
resume index `j`, segments `0..j-1` appear in the output unchanged from their
raw chunk text and only segments `j..k-1` are sent to the transform
capability (the single-segment branch ignores `resume_from`). -/
theorem clean_resume_skips_done (st : ClaudeState) (raw : String) (n j : Nat)
    (texts : List String) (usages : List Usage) (restR : List GenResult)
    (h2 : 2 <= (split_into_chunks raw n).length)
    (hlt : texts.length = (split_into_chunks raw n).length - j)
    (hlu : usages.length = texts.length)
    (hresp : st.responses = okResponses texts usages ++ restR) :
    clean_transcript st raw n j =
      (Except.ok (pyJoin "\n\n" ((split_into_chunks raw n).take j ++ texts),
        (split_into_chunks raw n).length, (split_into_chunks raw n).length),
       ⟨restR, addAll st.tracker usages CLEANUP_MODEL,
        st.calls ++ segmentCalls ((split_into_chunks raw n).drop j)⟩) :=
  clean_multi_ok st raw n j texts usages restR h2 hlt hlu hresp

/-- Witness for C2 (amended): `"a b c d"` with threshold 2 gives
`["a b", "c d"]`; resuming from index 1 carries `"a b"` through verbatim and
sends only segment 1, whose prompt is the one call logged. -/
theorem clean_resume_skips_done_instance :
    (2 <= (split_into_chunks "a b c d" 2).length) ∧
    clean_transcript ⟨[mkOk "C D" ⟨4, 1⟩], ⟨0, 0, 0, 0⟩, []⟩ "a b c d" 2 1 =
      (Except.ok
        (pyJoin "\n\n" ((split_into_chunks "a b c d" 2).take 1 ++ ["C D"]),
          (split_into_chunks "a b c d" 2).length,
          (split_into_chunks "a b c d" 2).length),
       ⟨[], addAll ⟨0, 0, 0, 0⟩ [⟨4, 1⟩] CLEANUP_MODEL,
        [] ++ segmentCalls ((split_into_chunks "a b c d" 2).drop 1)⟩) :=
  ⟨by decide,
   clean_resume_skips_done ⟨[mkOk "C D" ⟨4, 1⟩], ⟨0, 0, 0, 0⟩, []⟩
     "a b c d" 2 1 ["C D"] [⟨4, 1⟩] [] (by decide) (by decide) rfl rfl⟩

/-- C3: for every input text and positive threshold, the word sequences of
the chunks produced by `split_into_chunks` concatenate, in order, to the word
sequence of the input (no word dropped, duplicated or reordered), and each
chunk is at most `n` words rejoined with single spaces. -/
theorem split_chunks_word_coverage (text : String) (n : Nat) (h : 0 < n) :
    ((split_into_chunks text n).map wordsOf).flatten = wordsOf text ∧
    ∀ c ∈ split_into_chunks text n,
      (wordsOf c).length <= n ∧ c = pyJoin " " (wordsOf c) := by
  have hround : ∀ g ∈ chunkWords (wordsOf text) n, wordsOf (pyJoin " " g) = g :=
    fun g hg => wordsOf_pyJoin_space g (chunk_group_words text n h g hg)
  constructor
  · show ((List.map (pyJoin " ") (chunkWords (wordsOf text) n)).map
        wordsOf).flatten = _
    rw [List.map_map]
    have hmapeq : (chunkWords (wordsOf text) n).map (wordsOf ∘ pyJoin " ")
        = (chunkWords (wordsOf text) n).map id :=
      List.map_congr_left (fun g hg => hround g hg)
    rw [hmapeq, List.map_id]
    exact chunkWords_flatten (wordsOf text) n h
  · intro c hc
    rcases List.mem_map.mp hc with ⟨g, hg, rfl⟩
    rw [hround g hg]
    exact ⟨(chunkWords_groups (wordsOf text) n g hg).2, rfl⟩

/-- Witness for C3 at `"hello world again"` with threshold 2. -/
theorem split_chunks_word_coverage_instance :
    (0 : Nat) < 2 ∧
    (((split_into_chunks "hello world again" 2).map wordsOf).flatten
        = wordsOf "hello world again" ∧
      ∀ c ∈ split_into_chunks "hello world again" 2,
        (wordsOf c).length <= 2 ∧ c = pyJoin " " (wordsOf c)) :=
  ⟨by decide, split_chunks_word_coverage "hello world again" 2 (by decide)⟩

/-- C4: when the transform capability fails at segment index 0 of a run with
resume index 0 (so no carried-through segment and no success exists),
`clean_transcript` propagates the error instead of returning an outcome. -/
theorem clean_error_no_progress (st : ClaudeState) (raw : String) (n : Nat)
    (e : String) (restR : List GenResult)
    (hne : split_into_chunks raw n ≠ [])
    (hresp : st.responses = Except.error e :: restR) :
    (clean_transcript st raw n 0).1 = Except.error e := by
  by_cases h1 : (split_into_chunks raw n).length = 1
  · obtain ⟨c, hc⟩ := List.length_eq_one.mp h1
    rw [clean_single_err st raw n 0 c e restR hc hresp]
  · have h0 : (split_into_chunks raw n).length ≠ 0 := by
      simpa [List.length_eq_zero] using hne
    have h2 : 2 <= (split_into_chunks raw n).length := by omega
    have hmain := clean_multi_fail st raw n 0 0 [] [] e restR h2 le_rfl
      (by omega) rfl rfl (by simpa [okResponses] using hresp)
    rw [hmain]
    simp

/-- Witness for C4: the very first call on `"a b c d"` (two chunks) raises,
so the error is re-raised to the caller. -/
theorem clean_error_no_progress_instance :
    split_into_chunks "a b c d" 2 ≠ [] ∧
    (clean_transcript ⟨[Except.error "boom"], ⟨0, 0, 0, 0⟩, []⟩
        "a b c d" 2 0).1 = Except.error "boom" :=
  ⟨by decide,
   clean_error_no_progress ⟨[Except.error "boom"], ⟨0, 0, 0, 0⟩, []⟩
     "a b c d" 2 "boom" [] (by decide) rfl⟩

/-- C5: across any sequence of `add` calls each per-model total is
non-decreasing, and `total_cost` is a pure function of the four current
totals: two trackers with equal totals have equal cost (so calling it twice
with no intervening `add` yields identical results, and nothing mutates). -/
theorem tracker_monotone_cost_pure (t t2 : TokenTracker)
    (cs : List (Usage × String))
    (h1 : t2.haiku_input = t.haiku_input)
    (h2 : t2.haiku_output = t.haiku_output)
    (h3 : t2.sonnet_input = t.sonnet_input)
    (h4 : t2.sonnet_output = t.sonnet_output) :
    (t.haiku_input <= (applyRecords t cs).haiku_input ∧
     t.haiku_output <= (applyRecords t cs).haiku_output ∧
     t.sonnet_input <= (applyRecords t cs).sonnet_input ∧
     t.sonnet_output <= (applyRecords t cs).sonnet_output) ∧
    t2.total_cost = t.total_cost := by
  refine ⟨applyRecords_mono t cs, ?_⟩
  rw [TokenTracker.total_cost, TokenTracker.total_cost, h1, h2, h3, h4]

/-- Witness for C5 at a concrete tracker and a two-call record sequence. -/
theorem tracker_monotone_cost_pure_instance :
    (((⟨1, 2, 3, 4⟩ : TokenTracker)).haiku_input <=
        (applyRecords ⟨1, 2, 3, 4⟩
          [(⟨10, 20⟩, CLEANUP_MODEL), (⟨5, 6⟩, SMART_MODEL)]).haiku_input ∧
     ((⟨1, 2, 3, 4⟩ : TokenTracker)).haiku_output <=
        (applyRecords ⟨1, 2, 3, 4⟩
          [(⟨10, 20⟩, CLEANUP_MODEL), (⟨5, 6⟩, SMART_MODEL)]).haiku_output ∧
     ((⟨1, 2, 3, 4⟩ : TokenTracker)).sonnet_input <=
        (applyRecords ⟨1, 2, 3, 4⟩
          [(⟨10, 20⟩, CLEANUP_MODEL), (⟨5, 6⟩, SMART_MODEL)]).sonnet_input ∧
     ((⟨1, 2, 3, 4⟩ : TokenTracker)).sonnet_output <=
        (applyRecords ⟨1, 2, 3, 4⟩
          [(⟨10, 20⟩, CLEANUP_MODEL), (⟨5, 6⟩, SMART_MODEL)]).sonnet_output) ∧
    ((⟨1, 2, 3, 4⟩ : TokenTracker)).total_cost
      = ((⟨1, 2, 3, 4⟩ : TokenTracker)).total_cost :=
  tracker_monotone_cost_pure ⟨1, 2, 3, 4⟩ ⟨1, 2, 3, 4⟩
    [(⟨10, 20⟩, CLEANUP_MODEL), (⟨5, 6⟩, SMART_MODEL)] rfl rfl rfl rfl

/-- C6: a transcript of exactly `N` words with threshold `N` (with `N > 0`)
yields exactly one segment, and the pipeline issues exactly one transform
call, with the whole-document cleanup instruction and the fast cleanup
model, returning `completed = total = 1`. -/
theorem single_chunk_single_call (st : ClaudeState) (raw : String)
    (N s : Nat) (text : String) (u : Usage) (restR : List GenResult)
    (hN : 0 < N) (hw : (wordsOf raw).length = N)
    (hresp : st.responses = mkOk text u :: restR) :
    split_into_chunks raw N = [pyJoin " " (wordsOf raw)] ∧
    clean_transcript st raw N s =
      (Except.ok (text, 1, 1),
       ⟨restR, st.tracker.add u CLEANUP_MODEL,
        st.calls ++ [(wholeCleanupInstruction (pyJoin " " (wordsOf raw)),
          CLEANUP_MODEL)]⟩) := by
  have hsplit : split_into_chunks raw N = [pyJoin " " (wordsOf raw)] := by
    rw [split_into_chunks, chunkWords_exact (wordsOf raw) N hN hw]
    rfl
  exact ⟨hsplit, clean_single_ok st raw N s _ text u restR hsplit hresp⟩

/-- Witness for C6: `"alpha beta gamma"` has exactly 3 words; with threshold
3 the pipeline issues the one whole-document call and completes 1 of 1. -/
theorem single_chunk_single_call_instance :
    ((0 : Nat) < 3 ∧ (wordsOf "alpha beta gamma").length = 3) ∧
    (split_into_chunks "alpha beta gamma" 3
        = [pyJoin " " (wordsOf "alpha beta gamma")] ∧
     clean_transcript ⟨[mkOk "CLEAN" ⟨7, 8⟩], ⟨0, 0, 0, 0⟩, []⟩
        "alpha beta gamma" 3 0 =
       (Except.ok ("CLEAN", 1, 1),
        ⟨[], TokenTracker.add ⟨0, 0, 0, 0⟩ ⟨7, 8⟩ CLEANUP_MODEL,
         [] ++ [(wholeCleanupInstruction (pyJoin " " (wordsOf "alpha beta gamma")),
           CLEANUP_MODEL)]⟩)) :=
  ⟨⟨by decide, by decide⟩,
   single_chunk_single_call ⟨[mkOk "CLEAN" ⟨7, 8⟩], ⟨0, 0, 0, 0⟩, []⟩
     "alpha beta gamma" 3 0 "CLEAN" ⟨7, 8⟩ [] (by decide) (by decide) rfl⟩

/-- C7: when the external generation call raises, no usage is recorded: the
tracker after the failed `call_claude` equals the tracker before (also when
the trace is exhausted), and usage is recorded exactly on success, atomically
with the successful return. -/
theorem call_failure_records_nothing (st : ClaudeState)
    (prompt model : String) :
    (∀ e restR, st.responses = Except.error e :: restR →
      (call_claude st prompt model).2.tracker = st.tracker ∧
      (call_claude st prompt model).1 = Except.error e) ∧
    (st.responses = [] →
      (call_claude st prompt model).2.tracker = st.tracker) ∧
    (∀ text u restR, st.responses = mkOk text u :: restR →
      (call_claude st prompt model).2.tracker = st.tracker.add u model ∧
      (call_claude st prompt model).1 = Except.ok text) := by
  refine ⟨?_, ?_, ?_⟩
  · intro e restR h
    rw [call_claude_err st prompt model e restR h]
    exact ⟨rfl, rfl⟩
  · intro h
    unfold call_claude
    rw [h]
  · intro text u restR h
    rw [call_claude_ok st prompt model text u restR h]
    exact ⟨rfl, rfl⟩

/-- Witness for C7: a rate-limit failure leaves the tracker exactly as it
was. -/
theorem call_failure_records_nothing_instance :
    (call_claude ⟨[Except.error "rate limited"], ⟨1, 2, 3, 4⟩, []⟩
        "p" CLEANUP_MODEL).2.tracker = (⟨1, 2, 3, 4⟩ : TokenTracker) :=
  ((call_failure_records_nothing
      ⟨[Except.error "rate limited"], ⟨1, 2, 3, 4⟩, []⟩
      "p" CLEANUP_MODEL).1 "rate limited" [] rfl).1

/-- C8: `total_cost` is the sum over model classes of
`tokens / 1e6 * rate`; the fast rates are $0.80/M input and $4.00/M output,
and one fast call of 1,000,000 input and 500,000 output tokens from a fresh
tracker costs exactly $2.80. -/
theorem total_cost_formula_and_example :
    (∀ t : TokenTracker, t.total_cost =
      (t.haiku_input : ℚ) / 1000000 * HAIKU_INPUT_COST
        + (t.haiku_output : ℚ) / 1000000 * HAIKU_OUTPUT_COST
        + (t.sonnet_input : ℚ) / 1000000 * SONNET_INPUT_COST
        + (t.sonnet_output : ℚ) / 1000000 * SONNET_OUTPUT_COST) ∧
    HAIKU_INPUT_COST = 0.80 ∧ HAIKU_OUTPUT_COST = 4.00 ∧
    (TokenTracker.add ⟨0, 0, 0, 0⟩ ⟨1000000, 500000⟩
      CLEANUP_MODEL).total_cost = 2.80 := by
  refine ⟨fun t => rfl, rfl, rfl, ?_⟩
  have hadd : TokenTracker.add ⟨0, 0, 0, 0⟩ ⟨1000000, 500000⟩ CLEANUP_MODEL
      = ⟨1000000, 500000, 0, 0⟩ := by decide
  rw [hadd]
  norm_num [TokenTracker.total_cost, HAIKU_INPUT_COST, HAIKU_OUTPUT_COST,
    SONNET_INPUT_COST, SONNET_OUTPUT_COST]

/-- C9: the cleaned document of a multi-segment run, completed or partial, is
the ordered blank-line (`"\n\n"`) join of the segment results; for a
single-segment run it is exactly the one string the transform call
returned. -/
theorem clean_output_blank_line_join (st : ClaudeState) (raw : String)
    (n j : Nat) (texts : List String) (usages : List Usage)
    (restR : List GenResult) :
    (2 <= (split_into_chunks raw n).length →
      texts.length = (split_into_chunks raw n).length - j →
      usages.length = texts.length →
      st.responses = okResponses texts usages ++ restR →
      (clean_transcript st raw n j).1 =
        Except.ok (pyJoin "\n\n" ((split_into_chunks raw n).take j ++ texts),
          (split_into_chunks raw n).length,
          (split_into_chunks raw n).length)) ∧
    (∀ f e, 2 <= (split_into_chunks raw n).length → j <= f → 0 < f →
      f < (split_into_chunks raw n).length → texts.length = f - j →
      usages.length = texts.length →
      st.responses = okResponses texts usages ++ Except.error e :: restR →
      (clean_transcript st raw n j).1 =
        Except.ok (pyJoin "\n\n" ((split_into_chunks raw n).take j ++ texts),
          f, (split_into_chunks raw n).length)) ∧
    (∀ c text u, split_into_chunks raw n = [c] →
      st.responses = mkOk text u :: restR →
      (clean_transcript st raw n j).1 = Except.ok (text, 1, 1)) := by
  refine ⟨?_, ?_, ?_⟩
  · intro h2 hlt hlu hresp
    rw [clean_multi_ok st raw n j texts usages restR h2 hlt hlu hresp]
  · intro f e h2 hjf hf hfk hlt hlu hresp
    exact (clean_multi_fail_pos st raw n j f texts usages e restR
      h2 hjf hf hfk hlt hlu hresp).1
  · intro c text u hc hresp
    rw [clean_single_ok st raw n j c text u restR hc hresp]

/-- Witness for C9: a fully successful two-chunk run of `"x y z w"` joins the
two results with one blank line. -/
theorem clean_output_blank_line_join_instance :
    (2 <= (split_into_chunks "x y z w" 2).length) ∧
    (clean_transcript
        ⟨[mkOk "X Y" ⟨1, 1⟩, mkOk "Z W" ⟨2, 2⟩], ⟨0, 0, 0, 0⟩, []⟩
        "x y z w" 2 0).1 =
      Except.ok
        (pyJoin "\n\n" ((split_into_chunks "x y z w" 2).take 0
          ++ ["X Y", "Z W"]),
         (split_into_chunks "x y z w" 2).length,
         (split_into_chunks "x y z w" 2).length) :=
  ⟨by decide,
   (clean_output_blank_line_join
      ⟨[mkOk "X Y" ⟨1, 1⟩, mkOk "Z W" ⟨2, 2⟩], ⟨0, 0, 0, 0⟩, []⟩
      "x y z w" 2 0 ["X Y", "Z W"] [⟨1, 1⟩, ⟨2, 2⟩] []).1
     (by decide) (by decide) rfl rfl⟩

/-- C10: the empty input yields zero segments (not one empty segment), and
`clean_transcript` on it issues no transform call, returning the empty
document with `completed = total = 0` and the service state untouched. -/
theorem empty_input_zero_segments (n s : Nat) (st : ClaudeState) :
    split_into_chunks "" n = [] ∧
    clean_transcript st "" n s = (Except.ok ("", 0, 0), st) := by
  have hw : wordsOf "" = [] := by
    rw [wordsOf, empty_toList, wordsByChars_nil]
    rfl
  have hsplit : split_into_chunks "" n = [] := by
    rw [split_into_chunks, hw, chunkWords_nil]
    rfl
  refine ⟨hsplit, ?_⟩
  rw [clean_transcript_loop st "" n s (by rw [hsplit]; simp)]
  rw [hsplit, cleanLoop_nil]
  rfl

end YtTranscript
